import Mathlib

/-!
# Verification of the Grover benchmarking suite

A shallow embedding of the circuit-construction and analysis code of the
Grover benchmark repository (`main.py`, `hardware_stress_test.py`,
`scalability_study.py`), together with proofs about it.

* Circuits are lists of gates with Python-style (possibly negative) integer
  qubit indices; applying a gate to an `n`-qubit real statevector is
  `Option`-valued, `none` modelling a Qiskit `CircuitError` for an
  out-of-range index.  All gates appearing here (X, H, CCX, MCX) have real
  unitary matrices, so real amplitudes suffice.
* Histograms (Python `dict`s of counts) carry an explicit key `Finset`
  together with a count function; `Hist.get` models `dict.get(s, 0)`.
* `calculate_hellinger_fidelity` is `Except`-valued: a Python
  `ZeroDivisionError` is an `error` value.  Every division in the two dict
  comprehensions of the source has the same denominator `shots`, so the
  comprehension raises exactly when `shots = 0` and the iterated set is
  nonempty; `probsOf` expresses this directly.
-/

/-- An `n`-qubit state: a real amplitude for each assignment of the `n`
qubits.  Qubit `i` of the circuit corresponds to character `i` of the
target bitstring, and a basis state is the function sending each qubit to
its bit value. -/
def StateV (n : ℕ) : Type := (Fin n → Bool) → ℝ

/-- Gates appearing in the repository's circuits.  Indices are integers, as
in Python: Qiskit resolves a negative index `i` to qubit `n + i`. -/
inductive Gate
  | x (i : ℤ)
  | h (i : ℤ)
  | ccx (a b c : ℤ)
  | mcx (controls : List ℤ) (t : ℤ)
  | barrier
  | meas (q : ℤ) (c : ℤ)
deriving DecidableEq, Repr

/-- Python/Qiskit index resolution on a list of `n` qubits: `0 ≤ i < n`
resolves to `i`, `-n ≤ i < 0` resolves to `n + i`, anything else is a
`CircuitError` (`none`). -/
def resolveQ (n : ℕ) (i : ℤ) : Option (Fin n) :=
  if h1 : 0 ≤ i ∧ i < (n : ℤ) then some ⟨i.toNat, by omega⟩
  else if h2 : -(n : ℤ) ≤ i ∧ i < 0 then some ⟨(i + n).toNat, by omega⟩
  else none

/-- Resolve a list of indices; fails if any fails. -/
def resolveList (n : ℕ) : List ℤ → Option (List (Fin n))
  | [] => some []
  | i :: is => do
      let j ← resolveQ n i
      let js ← resolveList n is
      some (j :: js)

/-- Pauli-X on qubit `j`: permutes basis states by flipping bit `j`. -/
def applyX {n : ℕ} (j : Fin n) (ψ : StateV n) : StateV n :=
  fun x => ψ (Function.update x j (!x j))

/-- Hadamard on qubit `j`: `H = (1/√2) [[1,1],[1,-1]]` acting on the `j`-th
tensor factor. -/
noncomputable def applyH {n : ℕ} (j : Fin n) (ψ : StateV n) : StateV n :=
  fun x =>
    (ψ (Function.update x j false) +
      (if x j then (-1 : ℝ) else 1) * ψ (Function.update x j true)) / Real.sqrt 2

/-- Multi-controlled X with control qubits `cs` and target `j`: flips bit
`j` of a basis state exactly when every control bit is set.  With no
controls this is a plain X. -/
def applyMCX {n : ℕ} (cs : List (Fin n)) (j : Fin n) (ψ : StateV n) : StateV n :=
  fun x => if cs.all (fun c => x c) then ψ (Function.update x j (!x j)) else ψ x

/-- Apply one gate to a statevector.  A measurement has no statevector
semantics here (the oracle circuits this is used on contain none). -/
noncomputable def applyGate (n : ℕ) : Gate → StateV n → Option (StateV n)
  | Gate.x i, ψ => (resolveQ n i).map fun j => applyX j ψ
  | Gate.h i, ψ => (resolveQ n i).map fun j => applyH j ψ
  | Gate.ccx a b c, ψ => do
      let ja ← resolveQ n a
      let jb ← resolveQ n b
      let jc ← resolveQ n c
      some (applyMCX [ja, jb] jc ψ)
  | Gate.mcx cs t, ψ => do
      let js ← resolveList n cs
      let jt ← resolveQ n t
      some (applyMCX js jt ψ)
  | Gate.barrier, ψ => some ψ
  | Gate.meas _ _, _ => none

/-- Run a gate list left to right on a statevector. -/
noncomputable def runCircuit (n : ℕ) : List Gate → StateV n → Option (StateV n)
  | [], ψ => some ψ
  | g :: gs, ψ =>
      match applyGate n g ψ with
      | none => none
      | some φ => runCircuit n gs φ

/-- The loop `for i, bit in enumerate(target): if bit == '0': oracle.x(i)`
of `get_grover_oracle` (src/hardware_stress_test.py), with `i` the running
index. -/
def oracleXFlips : ℤ → List Char → List Gate
  | _, [] => []
  | i, c :: rest => (if c = '0' then [Gate.x i] else []) ++ oracleXFlips (i + 1) rest

/-- `get_grover_oracle(target_bitstring)` from src/hardware_stress_test.py
(lines 23-38): X on each qubit whose target bit is '0', H on the last
qubit, a CCX for n = 3 and otherwise an MCX with controls
`range(n-1)` and target `n-1`, H on the last qubit, and the X gates
again. -/
def get_grover_oracle (target : List Char) : List Gate :=
  let n : ℤ := target.length
  oracleXFlips 0 target
    ++ [Gate.h (n - 1)]
    ++ (if target.length = 3 then [Gate.ccx 0 1 2]
        else [Gate.mcx ((List.range (target.length - 1)).map Int.ofNat) (n - 1)])
    ++ [Gate.h (n - 1)]
    ++ oracleXFlips 0 target

/-- `create_oracle_for_101()` from src/main.py (lines 23-41): the literal
gate sequence X(1), H(2), CCX(0,1,2), H(2), X(1). -/
def create_oracle_for_101 : List Gate :=
  [Gate.x 1, Gate.h 2, Gate.ccx 0 1 2, Gate.h 2, Gate.x 1]

/-- The basis state named by a target bitstring: qubit `i` holds `true`
exactly when character `i` of the target is '1'. -/
def targetState (t : List Char) : Fin t.length → Bool :=
  fun i => t.get i == '1'

/-- The mask of qubits flipped by `oracleXFlips k t` (qubit `i` is flipped
when `k ≤ i` and character `i - k` of `t` is '0'). -/
def xMask {n : ℕ} (t : List Char) (k : ℕ) : Fin n → Bool :=
  fun i => decide (k ≤ i.val) && (t.getD (i.val - k) '1' == '0')

/-- A measurement histogram, modelling a Python `dict` from bitstrings to
counts: the set of present keys together with the stored count function. -/
structure Hist (α : Type) [DecidableEq α] where
  keys : Finset α
  count : α → ℕ

/-- `h.get s` models `h.get(s, 0)` on a Python dict: the stored count when
`s` is a key, `0` otherwise. -/
def Hist.get {α : Type} [DecidableEq α] (h : Hist α) (s : α) : ℕ :=
  if s ∈ h.keys then h.count s else 0

/-- `sum(h.values())`: the total number of shots recorded in `h`. -/
def Hist.total {α : Type} [DecidableEq α] (h : Hist α) : ℕ :=
  ∑ s in h.keys, h.count s

/-- `h[s] = 0` on a Python dict: add (or overwrite) the key `s` with
count `0`. -/
def Hist.insert0 {α : Type} [DecidableEq α] (h : Hist α) (s : α) : Hist α :=
  ⟨insert s h.keys, Function.update h.count s 0⟩

/-- The dict comprehension
`{state: counts.get(state, 0) / shots for state in all_states}` of
`calculate_hellinger_fidelity` (src/main.py lines 137-138).  Every entry
divides by the same `shots`, so in Python the comprehension raises
`ZeroDivisionError` exactly when `shots = 0` and `all_states` is nonempty;
otherwise it yields the probability function. -/
noncomputable def probsOf {α : Type} [DecidableEq α] (h : Hist α) (allStates : Finset α)
    (shots : ℕ) : Except String (α → ℝ) :=
  if shots = 0 ∧ allStates.Nonempty then Except.error "ZeroDivisionError"
  else Except.ok fun s => (h.get s : ℝ) / (shots : ℝ)

/-- `calculate_hellinger_fidelity(ideal_counts, noisy_counts, shots)` from
src/main.py (lines 127-148): take the union of the observed bitstrings,
convert both count dicts to probabilities (a `ZeroDivisionError` escapes if
`shots = 0` and a state exists), sum `sqrt(p * q)` over the union and
square the sum. -/
noncomputable def calculate_hellinger_fidelity {α : Type} [DecidableEq α]
    (ideal_counts noisy_counts : Hist α) (shots : ℕ) : Except String ℝ := do
  let all_states := ideal_counts.keys ∪ noisy_counts.keys
  let ideal_probs ← probsOf ideal_counts all_states shots
  let noisy_probs ← probsOf noisy_counts all_states shots
  Except.ok ((∑ s in all_states, Real.sqrt (ideal_probs s * noisy_probs s)) ^ 2)

/-- The value `calculate_hellinger_fidelity` returns on its non-raising
path, as a total real-valued function (Lean's division-by-zero convention
is irrelevant there since the raising path is excluded separately). -/
noncomputable def hellingerFidelity {α : Type} [DecidableEq α]
    (a b : Hist α) (shots : ℕ) : ℝ :=
  (∑ s in a.keys ∪ b.keys,
      Real.sqrt (((a.get s : ℝ) / shots) * ((b.get s : ℝ) / shots))) ^ 2

/-- Modelled from the spec (§4.6), for comparison with the code: over the
union of observed bitstrings with missing entries treated as 0, let
`Pa(s) = hist_a[s]/shots` and `Pb(s) = hist_b[s]/shots`; the fidelity is
`(Σ_s √(Pa(s)·Pb(s)))²`. -/
noncomputable def hellingerFidelitySpec {α : Type} [DecidableEq α]
    (hist_a hist_b : Hist α) (shots : ℕ) : ℝ :=
  (∑ s in hist_a.keys ∪ hist_b.keys,
      Real.sqrt (((hist_a.get s : ℝ) / shots) * ((hist_b.get s : ℝ) / shots))) ^ 2

/-- `int(np.round(np.pi / 4 * np.sqrt(2**n)))` from
src/hardware_stress_test.py line 68 and src/scalability_study.py line 30.
The quantity `π/4·√(2^n)` is irrational, in particular never a half-integer,
so NumPy's round-half-to-even agrees with `round`; the value is positive,
so `int` truncation is `Int.toNat`. -/
noncomputable def optimal_iterations (n : ℕ) : ℕ :=
  (round (Real.pi / 4 * Real.sqrt (2 ^ n))).toNat

/-- `qc.h(range(n))`: a Hadamard on every qubit. -/
def hLayer (n : ℕ) : List Gate := (List.range n).map fun i => Gate.h i

/-- An X gate on every qubit. -/
def xLayer (n : ℕ) : List Gate := (List.range n).map fun i => Gate.x i

/-- `qc.measure(range(n), range(n))`: measure every qubit into the
classical bit of the same index. -/
def measureAll (n : ℕ) : List Gate := (List.range n).map fun i => Gate.meas i i

/-- Modelled from the spec (§4.1 `build_diffusion`): the Grover diffusion
operator is not in this repository (it is produced by the library call
`grover_operator(oracle)`), so it is taken from the spec's words: Hadamard
on all qubits, bit-flip all qubits, the H-MCX-H phase-flip pattern on the
last qubit with all other qubits as controls, bit-flip back, Hadamard on
all qubits again. -/
def build_diffusion (n : ℕ) : List Gate :=
  hLayer n ++ xLayer n
    ++ [Gate.h ((n : ℤ) - 1),
        Gate.mcx ((List.range (n - 1)).map Int.ofNat) ((n : ℤ) - 1),
        Gate.h ((n : ℤ) - 1)]
    ++ xLayer n ++ hLayer n

/-- `grover_operator(oracle)` for the oracle of `target`: the oracle
followed by the diffusion operator (the diffusion half is modelled from the
spec, see `build_diffusion`). -/
def grover_op (target : List Char) : List Gate :=
  get_grover_oracle target ++ build_diffusion target.length

/-- `build_grover_circuit(target_bitstring)` from
src/hardware_stress_test.py (lines 48-77): Hadamard on all qubits, a
barrier, then `optimal_iterations` copies of the Grover operator each
followed by a barrier (the loop `qc.compose(grover_op, inplace=True)`),
then measurement of all qubits. -/
noncomputable def build_grover_circuit (target_bitstring : List Char) : List Gate :=
  let n := target_bitstring.length
  let base := hLayer n ++ [Gate.barrier]
  let op := grover_op target_bitstring
  let looped := (List.range (optimal_iterations n)).foldl
    (fun qc _ => qc ++ (op ++ [Gate.barrier])) base
  looped ++ measureAll n

/-- `create_grover_circuit_nqubit(n, target_bitstring)` from
src/scalability_study.py (lines 20-37): same construction with the qubit
count `n` passed separately; returns the circuit together with
`k_optimal`. -/
noncomputable def create_grover_circuit_nqubit (n : ℕ) (target_bitstring : List Char) :
    List Gate × ℕ :=
  let base := hLayer n ++ [Gate.barrier]
  let op := grover_op target_bitstring
  let k_optimal := optimal_iterations n
  let looped := (List.range k_optimal).foldl
    (fun qc _ => qc ++ (op ++ [Gate.barrier])) base
  (looped ++ measureAll n, k_optimal)

/-- The best-topology selection of `run_experiment_2_topology`
(src/hardware_stress_test.py lines 188-216): starting from
`best_backend = None`, `best_fidelity = -1.0`, each `(name, fid)` pair in
iteration order replaces the running best exactly when `fid > best_fidelity`
(strict comparison). -/
noncomputable def topologySweepBest (fids : List (String × ℝ)) : Option String × ℝ :=
  fids.foldl
    (fun best p => if p.2 > best.2 then (some p.1, p.2) else best)
    (none, -1)

/-! ## Infrastructure lemmas on circuit execution -/

theorem runCircuit_append (n : ℕ) (l1 l2 : List Gate) (ψ : StateV n) :
    runCircuit n (l1 ++ l2) ψ = (runCircuit n l1 ψ).bind (fun φ => runCircuit n l2 φ) := by
  induction l1 generalizing ψ with
  | nil => simp [runCircuit]
  | cons g gs ih =>
    cases hg : applyGate n g ψ with
    | none => simp [runCircuit, hg]
    | some φ => simp [runCircuit, hg, ih]

theorem resolveQ_natCast {n : ℕ} (k : ℕ) (hk : k < n) :
    resolveQ n (k : ℤ) = some ⟨k, hk⟩ := by
  have h1 : (0 : ℤ) ≤ (k : ℤ) ∧ (k : ℤ) < (n : ℤ) :=
    ⟨Int.natCast_nonneg k, by exact_mod_cast hk⟩
  simp only [resolveQ, dif_pos h1, Option.some.injEq, Fin.mk.injEq]
  omega

theorem resolveQ_last {n : ℕ} (hn : 0 < n) :
    resolveQ n ((n : ℤ) - 1) = some ⟨n - 1, by omega⟩ := by
  have h1 : (0 : ℤ) ≤ (n : ℤ) - 1 ∧ (n : ℤ) - 1 < (n : ℤ) := by omega
  simp only [resolveQ, dif_pos h1, Option.some.injEq, Fin.mk.injEq]
  omega

theorem resolveList_spec {n : ℕ} (l : List ℤ) (hl : ∀ i ∈ l, 0 ≤ i ∧ i < (n : ℤ)) :
    ∃ L : List (Fin n), resolveList n l = some L ∧
      ∀ j : Fin n, (j ∈ L ↔ (j.val : ℤ) ∈ l) := by
  induction l with
  | nil => exact ⟨[], rfl, by simp⟩
  | cons i is ih =>
    obtain ⟨h0, hlt⟩ := hl i (List.mem_cons_self i is)
    obtain ⟨L, hL, hmem⟩ := ih (fun j hj => hl j (List.mem_cons_of_mem _ hj))
    have hres : resolveQ n i = some ⟨i.toNat, by omega⟩ := by
      simp only [resolveQ, dif_pos (show (0 : ℤ) ≤ i ∧ i < (n : ℤ) from ⟨h0, hlt⟩)]
    refine ⟨(⟨i.toNat, by omega⟩ : Fin n) :: L, ?_, ?_⟩
    · simp [resolveList, hres, hL]
    · intro j
      simp only [List.mem_cons, hmem j, Fin.ext_iff]
      constructor
      · rintro (hj | hj)
        · exact Or.inl (by omega)
        · exact Or.inr hj
      · rintro (hj | hj)
        · exact Or.inl (by omega)
        · exact Or.inr hj

theorem xMask_cons {n : ℕ} (c : Char) (rest : List Char) (k : ℕ) (i : Fin n) :
    xMask (c :: rest) k i = if i.val = k then (c == '0') else xMask rest (k + 1) i := by
  unfold xMask
  rcases lt_trichotomy i.val k with hlt | heq | hgt
  · have h1 : ¬ (k ≤ i.val) := by omega
    have h2 : ¬ (k + 1 ≤ i.val) := by omega
    have h3 : i.val ≠ k := by omega
    simp [h1, h2, h3]
  · have h1 : k ≤ i.val := by omega
    have h2 : i.val - k = 0 := by omega
    simp [heq, h1, h2]
  · have h1 : k ≤ i.val := by omega
    have h2 : k + 1 ≤ i.val := by omega
    have h3 : i.val ≠ k := by omega
    have h4 : i.val - k = (i.val - (k + 1)) + 1 := by omega
    simp [h1, h2, h3, h4, List.getD_cons_succ]

theorem xMask_nil {n : ℕ} (k : ℕ) (i : Fin n) : xMask [] k i = false := by
  have hc : ('1' : Char) ≠ '0' := by decide
  simp [xMask, List.getD, hc]

theorem oracleXFlips_run {n : ℕ} (t : List Char) (k : ℕ) (hk : k + t.length ≤ n)
    (ψ : StateV n) :
    runCircuit n (oracleXFlips (k : ℤ) t) ψ =
      some (fun x => ψ (fun i => xor (x i) (xMask t k i))) := by
  induction t generalizing k ψ with
  | nil =>
    refine congrArg some ?_
    funext x
    congr 1
    funext i
    simp [xMask_nil]
  | cons c rest ih =>
    have hk' : (k + 1) + rest.length ≤ n := by
      simp only [List.length_cons] at hk; omega
    have hkn : k < n := by simp only [List.length_cons] at hk; omega
    have hcast : ((k : ℤ) + 1) = ((k + 1 : ℕ) : ℤ) := by push_cast; ring
    by_cases hc : c = '0'
    · have hx : applyGate n (Gate.x (k : ℤ)) ψ = some (applyX ⟨k, hkn⟩ ψ) := by
        simp [applyGate, resolveQ_natCast k hkn]
      have hstep : runCircuit n (oracleXFlips (k : ℤ) (c :: rest)) ψ
          = runCircuit n (oracleXFlips ((k : ℤ) + 1) rest) (applyX ⟨k, hkn⟩ ψ) := by
        show runCircuit n ((if c = '0' then [Gate.x (k : ℤ)] else [])
            ++ oracleXFlips ((k : ℤ) + 1) rest) ψ = _
        rw [if_pos hc, List.singleton_append]
        show (match applyGate n (Gate.x (k : ℤ)) ψ with
          | none => none
          | some φ => runCircuit n (oracleXFlips ((k : ℤ) + 1) rest) φ) = _
        rw [hx]
      rw [hstep, hcast, ih (k + 1) hk' (applyX ⟨k, hkn⟩ ψ)]
      refine congrArg some ?_
      funext x
      show ψ (Function.update (fun i => xor (x i) (xMask rest (k + 1) i)) ⟨k, hkn⟩
          (!(xor (x ⟨k, hkn⟩) (xMask rest (k + 1) ⟨k, hkn⟩)))) = _
      congr 1
      funext i
      rcases eq_or_ne i (⟨k, hkn⟩ : Fin n) with rfl | hne
      · have hm : xMask rest (k + 1) (⟨k, hkn⟩ : Fin n) = false := by
          simp [xMask, show ¬ (k + 1 ≤ k) by omega]
        rw [Function.update_same, hm, xMask_cons]
        simp only [if_pos rfl, hc]
        cases x ⟨k, hkn⟩ <;> rfl
      · rw [Function.update_noteq hne, xMask_cons]
        have hv : i.val ≠ k := fun hv => hne (Fin.ext hv)
        rw [if_neg hv]
    · have hmask : ∀ i : Fin n, xMask (c :: rest) k i = xMask rest (k + 1) i := by
        intro i
        rw [xMask_cons]
        rcases eq_or_ne i.val k with hv | hv
        · have hb : (c == '0') = false := by
            simp [hc]

          simp [hv, hb, xMask, show ¬ (k + 1 ≤ k) by omega]
        · simp [hv]
      have hstep : runCircuit n (oracleXFlips (k : ℤ) (c :: rest)) ψ
          = runCircuit n (oracleXFlips ((k : ℤ) + 1) rest) ψ := by
        show runCircuit n ((if c = '0' then [Gate.x (k : ℤ)] else [])
            ++ oracleXFlips ((k : ℤ) + 1) rest) ψ = _
        rw [if_neg hc, List.nil_append]
      rw [hstep, hcast, ih (k + 1) hk' ψ]
      refine congrArg some ?_
      funext x
      congr 1
      funext i
      rw [hmask]

theorem all_update {n : ℕ} (L : List (Fin n)) (j : Fin n) (hj : j ∉ L)
    (x : Fin n → Bool) (b : Bool) :
    (L.all fun c => (Function.update x j b) c) = (L.all fun c => x c) := by
  induction L with
  | nil => rfl
  | cons a as ih =>
    have haj : a ≠ j := by
      rintro rfl
      exact hj (List.mem_cons_self _ _)
    have hj' : j ∉ as := fun hmem => hj (List.mem_cons_of_mem _ hmem)
    simp only [List.all_cons, Function.update_noteq haj, ih hj']

theorem hmxh {n : ℕ} (j : Fin n) (L : List (Fin n)) (hj : j ∉ L) (ψ : StateV n) :
    applyH j (applyMCX L j (applyH j ψ)) =
      fun x => (if (L.all fun c => x c) && x j then (-1 : ℝ) else 1) * ψ x := by
  funext x
  have hs2 : Real.sqrt 2 * Real.sqrt 2 = 2 := Real.mul_self_sqrt (by norm_num)
  have hs2ne : Real.sqrt 2 ≠ 0 := (Real.sqrt_pos.mpr (by norm_num)).ne'
  have hu0 : Function.update (Function.update x j false) j true = Function.update x j true :=
    Function.update_idem _ _ _
  have hu1 : Function.update (Function.update x j true) j false = Function.update x j false :=
    Function.update_idem _ _ _
  have hu00 : Function.update (Function.update x j false) j false = Function.update x j false :=
    Function.update_idem _ _ _
  have hu11 : Function.update (Function.update x j true) j true = Function.update x j true :=
    Function.update_idem _ _ _
  show (applyMCX L j (applyH j ψ) (Function.update x j false) +
      (if x j then (-1 : ℝ) else 1) *
        applyMCX L j (applyH j ψ) (Function.update x j true)) / Real.sqrt 2 = _
  simp only [applyMCX, applyH, all_update L j hj, Function.update_same, hu0, hu1, hu00, hu11,
    Bool.not_false, Bool.not_true, if_true, if_false]
  cases hcond : (L.all fun c => x c) with
  | false =>
    simp only [Bool.false_and, if_neg (by simp : ¬ (false = true)), one_mul]
    cases hxj : x j with
    | false =>
      have hxx : Function.update x j false = x := by
        rw [← hxj]; exact Function.update_eq_self j x
      rw [hxx]
      simp only [if_neg (by simp : ¬ (false = true))]
      field_simp
      ring
    | true =>
      have hxx : Function.update x j true = x := by
        rw [← hxj]; exact Function.update_eq_self j x
      rw [hxx]
      simp only [if_pos rfl]
      field_simp
      ring
  | true =>
    simp only [Bool.true_and]
    cases hxj : x j with
    | false =>
      have hxx : Function.update x j false = x := by
        rw [← hxj]; exact Function.update_eq_self j x
      rw [hxx]
      simp only [if_neg (by simp : ¬ (false = true))]
      field_simp
      ring
    | true =>
      have hxx : Function.update x j true = x := by
        rw [← hxj]; exact Function.update_eq_self j x
      rw [hxx]
      simp only [if_pos rfl]
      field_simp
      ring

theorem runCircuit_single {n : ℕ} (g : Gate) (φ φ' : StateV n)
    (hg : applyGate n g φ = some φ') : runCircuit n [g] φ = some φ' := by
  show (match applyGate n g φ with
    | none => none
    | some φ2 => runCircuit n [] φ2) = some φ'
  rw [hg]
  rfl


theorem oracle_run_of_mid (t : List Char) (hn : 0 < t.length)
    (mid : Gate) (L : List (Fin t.length))
    (hmid : ∀ φ : StateV t.length,
      applyGate t.length mid φ = some (applyMCX L ⟨t.length - 1, by omega⟩ φ))
    (hLmem : ∀ j : Fin t.length, j ∈ L ↔ j.val < t.length - 1)
    (hb : ∀ c ∈ t, c = '0' ∨ c = '1') (ψ : StateV t.length) :
    runCircuit t.length (oracleXFlips 0 t ++ [Gate.h ((t.length : ℤ) - 1)] ++ [mid]
        ++ [Gate.h ((t.length : ℤ) - 1)] ++ oracleXFlips 0 t) ψ
      = some (fun x => (if x = targetState t then (-1 : ℝ) else 1) * ψ x) := by
  have hjL : (⟨t.length - 1, by omega⟩ : Fin t.length) ∉ L := by
    intro hmem'
    have hlt := (hLmem _).1 hmem'
    exact absurd (show t.length - 1 < t.length - 1 from hlt) (by omega)
  have hA : ∀ φ : StateV t.length, runCircuit t.length (oracleXFlips 0 t) φ
      = some (fun x => φ (fun i => xor (x i) (xMask t 0 i))) := by
    intro φ
    have h0 : ((0 : ℕ) : ℤ) = (0 : ℤ) := rfl
    have := oracleXFlips_run (n := t.length) t 0 (by omega) φ
    rw [h0] at this
    exact this
  have hH : ∀ φ : StateV t.length, applyGate t.length (Gate.h ((t.length : ℤ) - 1)) φ
      = some (applyH (⟨t.length - 1, by omega⟩ : Fin t.length) φ) := by
    intro φ
    simp [applyGate, resolveQ_last hn]
  have hcancel : ∀ x : Fin t.length → Bool,
      (fun i => xor (xor (x i) (xMask t 0 i)) (xMask t 0 i)) = x := by
    intro x
    funext i
    cases x i <;> cases xMask t 0 i <;> rfl
  have hmask1 : ∀ j : Fin t.length, (!(xMask t 0 j)) = targetState t j := by
    intro j
    have hget : t.getD (j.val - 0) '1' = t.get j := by
      rw [Nat.sub_zero, List.getD_eq_getElem t '1' j.isLt]
      rfl
    simp only [xMask, targetState]
    rw [hget]
    rcases hb (t.get j) (List.get_mem t j.val j.isLt) with hc | hc
    · rw [hc]
      have e1 : (('0' : Char) == '0') = true := by decide
      have e2 : (('0' : Char) == '1') = false := by decide
      simp [e1, e2]
    · rw [hc]
      have e1 : (('1' : Char) == '0') = false := by decide
      have e2 : (('1' : Char) == '1') = true := by decide
      simp [e1, e2]
  have hcond : ∀ x : Fin t.length → Bool,
      (((L.all fun c => xor (x c) (xMask t 0 c)) &&
          xor (x ⟨t.length - 1, by omega⟩)
            (xMask t 0 (⟨t.length - 1, by omega⟩ : Fin t.length))) = true)
        ↔ x = targetState t := by
    intro x
    rw [Bool.and_eq_true, List.all_eq_true, funext_iff]
    constructor
    · rintro ⟨h1, h2⟩ j
      have hy : xor (x j) (xMask t 0 j) = true := by
        rcases Nat.lt_or_ge j.val (t.length - 1) with hlt | hge
        · exact h1 j ((hLmem j).2 hlt)
        · have hjlt : j.val < t.length := j.isLt
          have hj : j = ⟨t.length - 1, by omega⟩ :=
            Fin.ext (show j.val = t.length - 1 by omega)
          rw [hj]
          exact h2
      rw [← hmask1 j]
      cases hxj : x j <;> cases hm : xMask t 0 j <;>
        simp [hxj, hm] at hy ⊢
    · intro hall
      have hy : ∀ j : Fin t.length, xor (x j) (xMask t 0 j) = true := by
        intro j
        have := hall j
        rw [← hmask1 j] at this
        cases hxj : x j <;> cases hm : xMask t 0 j <;>
          simp [hxj, hm] at this ⊢
      exact ⟨fun c _ => hy c, hy _⟩
  simp only [List.append_assoc]
  rw [runCircuit_append]
  rw [hA ψ, Option.some_bind]
  rw [runCircuit_append]
  rw [runCircuit_single _ _ _ (hH _), Option.some_bind]
  rw [runCircuit_append]
  rw [runCircuit_single _ _ _ (hmid _), Option.some_bind]
  rw [runCircuit_append]
  rw [runCircuit_single _ _ _ (hH _), Option.some_bind]
  rw [hmxh _ L hjL]
  rw [hA _]
  refine congrArg some ?_
  funext x
  show (if ((L.all fun c => xor (x c) (xMask t 0 c)) &&
        xor (x ⟨t.length - 1, by omega⟩) (xMask t 0 ⟨t.length - 1, by omega⟩)) = true
      then (-1 : ℝ) else 1) *
      ψ (fun i => xor (xor (x i) (xMask t 0 i)) (xMask t 0 i))
    = (if x = targetState t then (-1 : ℝ) else 1) * ψ x
  rw [hcancel x]
  by_cases hx : x = targetState t
  · rw [if_pos ((hcond x).2 hx), if_pos hx]
  · rw [if_neg (fun hcnd => hx ((hcond x).1 hcnd)), if_neg hx]

/-- C1: for every target bitstring `t` of length `n` over {0,1}, the oracle
circuit built for `t` (X on every qubit whose target bit is '0', H on the
last qubit, a multi-controlled X with all other qubits as controls and the
last qubit as target — a Toffoli when n = 3 — H on the last qubit, the same
X gates again) acts on basis states by multiplying the basis state equal to
`t` by −1 and leaving every other basis state unchanged; moreover the
hard-coded oracle of main.py is exactly this circuit for target "101". -/
theorem oracle_marks_target_only (t : List Char) (hn : 0 < t.length)
    (hb : ∀ c ∈ t, c = '0' ∨ c = '1') (ψ : StateV t.length) :
    runCircuit t.length (get_grover_oracle t) ψ
      = some (fun x => (if x = targetState t then (-1 : ℝ) else 1) * ψ x)
    ∧ create_oracle_for_101 = get_grover_oracle ['1', '0', '1'] := by
  constructor
  · show runCircuit t.length (oracleXFlips 0 t ++ [Gate.h ((t.length : ℤ) - 1)]
        ++ (if t.length = 3 then [Gate.ccx 0 1 2]
            else [Gate.mcx ((List.range (t.length - 1)).map Int.ofNat) ((t.length : ℤ) - 1)])
        ++ [Gate.h ((t.length : ℤ) - 1)] ++ oracleXFlips 0 t) ψ = _
    by_cases h3 : t.length = 3
    · rw [if_pos h3]
      have r0 : resolveQ t.length (0 : ℤ) = some ⟨0, by omega⟩ := by
        have := resolveQ_natCast (n := t.length) 0 (by omega)
        simpa using this
      have r1 : resolveQ t.length (1 : ℤ) = some ⟨1, by omega⟩ := by
        have := resolveQ_natCast (n := t.length) 1 (by omega)
        simpa using this
      have r2 : resolveQ t.length (2 : ℤ) = some ⟨2, by omega⟩ := by
        have := resolveQ_natCast (n := t.length) 2 (by omega)
        simpa using this
      have hfin : (⟨2, by omega⟩ : Fin t.length) = ⟨t.length - 1, by omega⟩ :=
        Fin.ext (show (2 : ℕ) = t.length - 1 by omega)
      refine oracle_run_of_mid t hn (Gate.ccx 0 1 2)
        [⟨0, by omega⟩, ⟨1, by omega⟩] ?_ ?_ hb ψ
      · intro φ
        show (do
          let ja ← resolveQ t.length 0
          let jb ← resolveQ t.length 1
          let jc ← resolveQ t.length 2
          some (applyMCX [ja, jb] jc φ)) = _
        rw [r0, r1, r2, hfin]
        rfl
      · intro j
        simp only [List.mem_cons, List.not_mem_nil, or_false, Fin.ext_iff]
        show j.val = 0 ∨ j.val = 1 ↔ j.val < t.length - 1
        omega
    · rw [if_neg h3]
      have hbound : ∀ i ∈ (List.range (t.length - 1)).map Int.ofNat,
          0 ≤ i ∧ i < (t.length : ℤ) := by
        intro i hi
        simp only [List.mem_map, List.mem_range] at hi
        obtain ⟨a, ha, rfl⟩ := hi
        constructor
        · exact Int.ofNat_nonneg a
        · show ((a : ℕ) : ℤ) < (t.length : ℤ)
          exact_mod_cast (by omega : a < t.length)
      obtain ⟨L, hL, hmem'⟩ := resolveList_spec _ hbound
      refine oracle_run_of_mid t hn _ L ?_ ?_ hb ψ
      · intro φ
        show (do
          let js ← resolveList t.length ((List.range (t.length - 1)).map Int.ofNat)
          let jt ← resolveQ t.length ((t.length : ℤ) - 1)
          some (applyMCX js jt φ)) = _
        rw [hL, resolveQ_last hn]
        rfl
      · intro j
        rw [hmem' j]
        simp only [List.mem_map, List.mem_range]
        constructor
        · rintro ⟨a, ha, hEq⟩
          have hEq' : (a : ℤ) = (j.val : ℤ) := hEq
          omega
        · intro hj
          exact ⟨j.val, hj, rfl⟩
  · decide

/-- Witness for C1: the oracle theorem applied to the concrete target "101"
and the constant-1 amplitude vector. -/
theorem oracle_marks_target_only_witness :
    (0 < (['1', '0', '1'] : List Char).length ∧
      ∀ c ∈ (['1', '0', '1'] : List Char), c = '0' ∨ c = '1') ∧
    (runCircuit (['1', '0', '1'] : List Char).length (get_grover_oracle ['1', '0', '1'])
        (fun _ => 1)
      = some (fun x =>
          (if x = targetState ['1', '0', '1'] then (-1 : ℝ) else 1) * (fun _ => (1 : ℝ)) x)
      ∧ create_oracle_for_101 = get_grover_oracle ['1', '0', '1']) :=
  ⟨⟨by decide, by decide⟩,
    oracle_marks_target_only ['1', '0', '1'] (by decide) (by decide) (fun _ => 1)⟩

/-- C7 is false of the code: `get_grover_oracle` performs no validation at
all.  On the malformed target "21" (the character '2' is outside {0,1}) it
silently builds a circuit — the very same gate list as for the valid target
"11" — instead of failing fast with a validation error. -/
theorem get_grover_oracle_no_validation :
    get_grover_oracle ['2', '1'] = get_grover_oracle ['1', '1'] := by
  decide

/-! ## Lemmas on the Hellinger-fidelity computation -/

theorem calculate_hellinger_ok {α : Type} [DecidableEq α] (a b : Hist α) (shots : ℕ)
    (hs : shots ≠ 0) :
    calculate_hellinger_fidelity a b shots = Except.ok (hellingerFidelity a b shots) := by
  have hcond : ¬ (shots = 0 ∧ (a.keys ∪ b.keys).Nonempty) := fun hc => hs hc.1
  unfold calculate_hellinger_fidelity probsOf
  simp only [if_neg hcond]
  rfl

theorem calculate_hellinger_err {α : Type} [DecidableEq α] (a b : Hist α)
    (hne : (a.keys ∪ b.keys).Nonempty) :
    calculate_hellinger_fidelity a b 0 = Except.error "ZeroDivisionError" := by
  unfold calculate_hellinger_fidelity probsOf
  simp only [eq_self_iff_true, true_and, if_pos hne]
  rfl

theorem sum_get_over (α : Type) [DecidableEq α] (a : Hist α) (U : Finset α)
    (hsub : a.keys ⊆ U) :
    ∑ s in U, (a.get s : ℝ) = (a.total : ℝ) := by
  have h1 : ∑ s in U, (a.get s : ℝ) = ∑ s in a.keys, (a.get s : ℝ) :=
    (Finset.sum_subset hsub (fun x _ hx => by simp [Hist.get, hx])).symm
  have h2 : ∀ s ∈ a.keys, (a.get s : ℝ) = (a.count s : ℝ) := by
    intro s hsk
    simp [Hist.get, hsk]
  rw [h1, Finset.sum_congr rfl h2, Hist.total, Nat.cast_sum]

/-- C2: for histograms whose counts each sum to `shots > 0`,
`calculate_hellinger_fidelity` returns (no exception) exactly the spec's
formula `(Σ_s √(Pa(s)·Pb(s)))²` over the union of observed bitstrings with
missing entries treated as 0; the value lies in [0,1] and is 0 whenever the
supports are disjoint. -/
theorem hellinger_fidelity_contract {α : Type} [DecidableEq α] (a b : Hist α)
    (shots : ℕ) (ha : a.total = shots) (hb : b.total = shots) (hs : 0 < shots) :
    calculate_hellinger_fidelity a b shots
        = Except.ok (hellingerFidelitySpec a b shots)
      ∧ 0 ≤ hellingerFidelitySpec a b shots
      ∧ hellingerFidelitySpec a b shots ≤ 1
      ∧ ((∀ s, a.get s = 0 ∨ b.get s = 0) → hellingerFidelitySpec a b shots = 0) := by
  have hsne : (shots : ℝ) ≠ 0 := Nat.cast_ne_zero.mpr hs.ne'
  refine ⟨calculate_hellinger_ok a b shots hs.ne', sq_nonneg _, ?_, ?_⟩
  · unfold hellingerFidelitySpec
    have hterm : ∀ s ∈ a.keys ∪ b.keys,
        Real.sqrt (((a.get s : ℝ) / shots) * ((b.get s : ℝ) / shots))
          = Real.sqrt ((a.get s : ℝ) / shots) * Real.sqrt ((b.get s : ℝ) / shots) := by
      intro s _
      exact Real.sqrt_mul (by positivity) _
    rw [Finset.sum_congr rfl hterm]
    have hsa : ∑ s in a.keys ∪ b.keys, (a.get s : ℝ) / shots = 1 := by
      rw [← Finset.sum_div, sum_get_over α a _ Finset.subset_union_left, ha]
      exact div_self hsne
    have hsb : ∑ s in a.keys ∪ b.keys, (b.get s : ℝ) / shots = 1 := by
      rw [← Finset.sum_div, sum_get_over α b _ Finset.subset_union_right, hb]
      exact div_self hsne
    have hcs := Real.sum_sqrt_mul_sqrt_le (a.keys ∪ b.keys)
      (f := fun s => (a.get s : ℝ) / shots) (g := fun s => (b.get s : ℝ) / shots)
      (fun s => by positivity) (fun s => by positivity)
    rw [hsa, hsb, Real.sqrt_one, mul_one] at hcs
    have hnn : 0 ≤ ∑ s in a.keys ∪ b.keys,
        Real.sqrt ((a.get s : ℝ) / shots) * Real.sqrt ((b.get s : ℝ) / shots) :=
      Finset.sum_nonneg fun s _ => by positivity
    calc (∑ s in a.keys ∪ b.keys,
            Real.sqrt ((a.get s : ℝ) / shots) * Real.sqrt ((b.get s : ℝ) / shots)) ^ 2
        ≤ 1 ^ 2 := by
          exact pow_le_pow_left hnn hcs 2
      _ = 1 := one_pow 2
  · intro hdis
    unfold hellingerFidelitySpec
    rw [Finset.sum_eq_zero]
    · exact zero_pow (by norm_num)
    · intro s _
      rcases hdis s with h0 | h0 <;> simp [h0]

theorem calculate_hellinger_ok2 {α : Type} [DecidableEq α] (a b : Hist α) (shots : ℕ)
    (hc : ¬ (shots = 0 ∧ (a.keys ∪ b.keys).Nonempty)) :
    calculate_hellinger_fidelity a b shots = Except.ok (hellingerFidelity a b shots) := by
  unfold calculate_hellinger_fidelity probsOf
  simp only [if_neg hc]
  rfl

theorem hellinger_comm {α : Type} [DecidableEq α] (a b : Hist α) (shots : ℕ) :
    calculate_hellinger_fidelity a b shots = calculate_hellinger_fidelity b a shots := by
  by_cases hc : shots = 0 ∧ (a.keys ∪ b.keys).Nonempty
  · obtain ⟨h0, hne⟩ := hc
    subst h0
    rw [calculate_hellinger_err a b hne,
      calculate_hellinger_err b a (by rwa [Finset.union_comm])]
  · have hc2 : ¬ (shots = 0 ∧ (b.keys ∪ a.keys).Nonempty) := by
      rwa [Finset.union_comm]
    rw [calculate_hellinger_ok2 a b shots hc, calculate_hellinger_ok2 b a shots hc2]
    congr 1
    unfold hellingerFidelity
    rw [Finset.union_comm]
    exact congrArg (· ^ 2) (Finset.sum_congr rfl fun s _ => by rw [mul_comm])

theorem insert0_get {α : Type} [DecidableEq α] (h : Hist α) (s : α) (hs : s ∉ h.keys) :
    ∀ u, (h.insert0 s).get u = h.get u := by
  intro u
  rcases eq_or_ne u s with rfl | hne
  · simp [Hist.insert0, Hist.get, hs]
  · simp [Hist.insert0, Hist.get, Function.update_noteq hne, Finset.mem_insert, hne]

theorem insert0_left {α : Type} [DecidableEq α] (a b : Hist α) (s : α) (shots : ℕ)
    (hs : shots ≠ 0) (hsa : s ∉ a.keys) :
    calculate_hellinger_fidelity (a.insert0 s) b shots
      = calculate_hellinger_fidelity a b shots := by
  rw [calculate_hellinger_ok2 _ _ _ (fun hc => hs hc.1),
    calculate_hellinger_ok2 _ _ _ (fun hc => hs hc.1)]
  congr 1
  unfold hellingerFidelity
  have hkeys : (a.insert0 s).keys = insert s a.keys := rfl
  have hterm : ∀ u ∈ insert s (a.keys ∪ b.keys),
      Real.sqrt ((((a.insert0 s).get u : ℝ) / shots) * (((b.get u : ℝ)) / shots))
        = Real.sqrt (((a.get u : ℝ) / shots) * (((b.get u : ℝ)) / shots)) := by
    intro u _
    rw [insert0_get a s hsa u]
  rw [hkeys, Finset.insert_union, Finset.sum_congr rfl hterm]
  by_cases hmem : s ∈ a.keys ∪ b.keys
  · rw [Finset.insert_eq_self.mpr hmem]
  · rw [Finset.sum_insert hmem]
    have h0 : a.get s = 0 := by simp [Hist.get, hsa]
    rw [h0]
    norm_num

/-- C6: `calculate_hellinger_fidelity` is symmetric in its two histogram
arguments, for every pair of histograms and every shots value (including
`shots = 0`, where both orders raise the same `ZeroDivisionError`). -/
theorem hellinger_fidelity_symmetric {α : Type} [DecidableEq α] (a b : Hist α)
    (shots : ℕ) :
    calculate_hellinger_fidelity a b shots = calculate_hellinger_fidelity b a shots :=
  hellinger_comm a b shots

/-- C5 (amended): for every histogram with at least one nonzero count,
`calculate_hellinger_fidelity h h (sum of counts)` returns exactly 1 (in
particular it is within 1e-9 of 1).  The empty-histogram case is excluded:
see the counterexample. -/
theorem hellinger_self_eq_one {α : Type} [DecidableEq α] (h : Hist α)
    (hpos : 0 < h.total) :
    calculate_hellinger_fidelity h h h.total = Except.ok 1 := by
  rw [calculate_hellinger_ok h h h.total hpos.ne']
  congr 1
  unfold hellingerFidelity
  rw [Finset.union_self]
  have hterm : ∀ s ∈ h.keys,
      Real.sqrt (((h.get s : ℝ) / h.total) * ((h.get s : ℝ) / h.total))
        = (h.get s : ℝ) / h.total := by
    intro s _
    exact Real.sqrt_mul_self (by positivity)
  rw [Finset.sum_congr rfl hterm, ← Finset.sum_div,
    sum_get_over α h h.keys (Finset.Subset.refl _),
    div_self (Nat.cast_ne_zero.mpr hpos.ne')]
  norm_num

/-- Witness for C5: a one-bucket histogram with count 3. -/
theorem hellinger_self_eq_one_witness :
    0 < (Hist.mk {"101"} (fun _ => 3) : Hist String).total ∧
    calculate_hellinger_fidelity (Hist.mk {"101"} (fun _ => 3) : Hist String)
        (Hist.mk {"101"} (fun _ => 3)) (Hist.mk {"101"} (fun _ => 3) : Hist String).total
      = Except.ok 1 :=
  ⟨by decide, hellinger_self_eq_one (Hist.mk {"101"} (fun _ => 3)) (by decide)⟩

/-- Counterexample to C5 as stated: for the empty histogram (a legal Python
dict, with `shots = sum(h.values()) = 0`) the function returns 0.0, which is
not within 1e-9 of 1. -/
theorem hellinger_self_empty_not_one :
    calculate_hellinger_fidelity (Hist.mk (∅ : Finset String) fun _ => 0)
        (Hist.mk ∅ fun _ => 0) (Hist.mk (∅ : Finset String) fun _ => 0).total
      = Except.ok 0
    ∧ ¬ (|(0 : ℝ) - 1| ≤ 1 / 1000000000) := by
  constructor
  · rw [show (Hist.mk (∅ : Finset String) fun _ => 0).total = 0 from rfl,
      calculate_hellinger_ok2 _ _ _ (by simp)]
    congr 1
    unfold hellingerFidelity
    simp
  · rw [zero_sub, abs_neg, abs_one]
    norm_num

/-- Witness for C2: two singleton histograms with disjoint supports,
4 shots each. -/
theorem hellinger_fidelity_contract_witness :
    ((Hist.mk {"101"} (fun _ => 4) : Hist String).total = 4
      ∧ (Hist.mk {"010"} (fun _ => 4) : Hist String).total = 4
      ∧ 0 < 4)
    ∧ (calculate_hellinger_fidelity (Hist.mk {"101"} (fun _ => 4) : Hist String)
          (Hist.mk {"010"} (fun _ => 4)) 4
        = Except.ok (hellingerFidelitySpec (Hist.mk {"101"} (fun _ => 4) : Hist String)
            (Hist.mk {"010"} (fun _ => 4)) 4)
      ∧ 0 ≤ hellingerFidelitySpec (Hist.mk {"101"} (fun _ => 4) : Hist String)
          (Hist.mk {"010"} (fun _ => 4)) 4
      ∧ hellingerFidelitySpec (Hist.mk {"101"} (fun _ => 4) : Hist String)
          (Hist.mk {"010"} (fun _ => 4)) 4 ≤ 1
      ∧ ((∀ s, (Hist.mk {"101"} (fun _ => 4) : Hist String).get s = 0
              ∨ (Hist.mk {"010"} (fun _ => 4) : Hist String).get s = 0)
          → hellingerFidelitySpec (Hist.mk {"101"} (fun _ => 4) : Hist String)
              (Hist.mk {"010"} (fun _ => 4)) 4 = 0)) :=
  ⟨⟨by decide, by decide, by decide⟩,
    hellinger_fidelity_contract (Hist.mk {"101"} (fun _ => 4))
      (Hist.mk {"010"} (fun _ => 4)) 4 (by decide) (by decide) (by decide)⟩

/-- C4 is violated by the code: with `shots = 0` and a nonempty histogram
the division `counts.get(state, 0) / shots` is not guarded — it raises a
`ZeroDivisionError` (not a configuration error). -/
theorem hellinger_shots_zero_raises :
    calculate_hellinger_fidelity (Hist.mk {"101"} (fun _ => 8192) : Hist String)
        (Hist.mk {"101"} (fun _ => 8192)) 0
      = Except.error "ZeroDivisionError" :=
  calculate_hellinger_err _ _ ⟨"101", by decide⟩

/-- C9 (amended): for `shots ≠ 0`, adding a fresh entry with count 0 to
either input histogram does not change the result of
`calculate_hellinger_fidelity`, and the non-raising value depends only on
the bitstrings with a nonzero count in both histograms.  (For `shots = 0`
the extra key turns the empty computation into a `ZeroDivisionError`: see
the counterexample.) -/
theorem hellinger_zero_count_entry {α : Type} [DecidableEq α] (a b : Hist α) (s : α)
    (shots : ℕ) (hs : shots ≠ 0) (hsa : s ∉ a.keys) (hsb : s ∉ b.keys) :
    calculate_hellinger_fidelity (a.insert0 s) b shots
        = calculate_hellinger_fidelity a b shots
    ∧ calculate_hellinger_fidelity a (b.insert0 s) shots
        = calculate_hellinger_fidelity a b shots
    ∧ hellingerFidelity a b shots
        = (∑ u in (a.keys ∪ b.keys).filter (fun u => a.get u ≠ 0 ∧ b.get u ≠ 0),
            Real.sqrt (((a.get u : ℝ) / shots) * ((b.get u : ℝ) / shots))) ^ 2 := by
  refine ⟨insert0_left a b s shots hs hsa, ?_, ?_⟩
  · rw [hellinger_comm a (b.insert0 s) shots, hellinger_comm a b shots]
    exact insert0_left b a s shots hs hsb
  · unfold hellingerFidelity
    refine congrArg (· ^ 2) ?_
    refine (Finset.sum_filter_of_ne ?_).symm
    intro u _ hne
    by_contra hcon
    rcases not_and_or.mp hcon with h0 | h0
    · rw [not_not.mp h0] at hne
      simp at hne
    · rw [not_not.mp h0] at hne
      simp at hne

/-- Witness for C9: concrete two-bucket histograms, a fresh key "11",
2 shots. -/
theorem hellinger_zero_count_entry_witness :
    ((2 : ℕ) ≠ 0 ∧ "11" ∉ (Hist.mk {"01"} (fun _ => 2) : Hist String).keys
      ∧ "11" ∉ (Hist.mk {"10"} (fun _ => 2) : Hist String).keys)
    ∧ (calculate_hellinger_fidelity
          ((Hist.mk {"01"} (fun _ => 2) : Hist String).insert0 "11")
          (Hist.mk {"10"} (fun _ => 2)) 2
        = calculate_hellinger_fidelity (Hist.mk {"01"} (fun _ => 2) : Hist String)
            (Hist.mk {"10"} (fun _ => 2)) 2
      ∧ calculate_hellinger_fidelity (Hist.mk {"01"} (fun _ => 2) : Hist String)
          ((Hist.mk {"10"} (fun _ => 2) : Hist String).insert0 "11") 2
        = calculate_hellinger_fidelity (Hist.mk {"01"} (fun _ => 2) : Hist String)
            (Hist.mk {"10"} (fun _ => 2)) 2
      ∧ hellingerFidelity (Hist.mk {"01"} (fun _ => 2) : Hist String)
          (Hist.mk {"10"} (fun _ => 2)) 2
        = (∑ u in (((Hist.mk {"01"} (fun _ => 2) : Hist String).keys
              ∪ (Hist.mk {"10"} (fun _ => 2) : Hist String).keys).filter
                (fun u => (Hist.mk {"01"} (fun _ => 2) : Hist String).get u ≠ 0
                  ∧ (Hist.mk {"10"} (fun _ => 2) : Hist String).get u ≠ 0)),
            Real.sqrt ((((Hist.mk {"01"} (fun _ => 2) : Hist String).get u : ℝ) / 2)
              * (((Hist.mk {"10"} (fun _ => 2) : Hist String).get u : ℝ) / 2))) ^ 2) :=
  ⟨⟨by decide, by decide, by decide⟩,
    hellinger_zero_count_entry (Hist.mk {"01"} (fun _ => 2))
      (Hist.mk {"10"} (fun _ => 2)) "11" 2 (by decide) (by decide) (by decide)⟩

/-- Counterexample to C9 as stated ("every shots value"): with
`shots = 0` and two empty histograms, adding a count-0 entry changes the
result from a clean 0.0 to a `ZeroDivisionError`. -/
theorem hellinger_insert0_shots_zero_differs :
    calculate_hellinger_fidelity
        ((Hist.mk (∅ : Finset String) fun _ => 0).insert0 "1")
        (Hist.mk ∅ fun _ => 0) 0
      = Except.error "ZeroDivisionError"
    ∧ calculate_hellinger_fidelity (Hist.mk (∅ : Finset String) fun _ => 0)
        (Hist.mk ∅ fun _ => 0) 0 = Except.ok 0 := by
  constructor
  · exact calculate_hellinger_err _ _ ⟨"1", by decide⟩
  · rw [calculate_hellinger_ok2 _ _ _ (by simp)]
    congr 1
    unfold hellingerFidelity
    simp

/-! ## The Grover iteration count -/

theorem optimal_iterations_pos (n : ℕ) : 1 ≤ optimal_iterations n := by
  unfold optimal_iterations
  have h2n : (1 : ℝ) ≤ (2 : ℝ) ^ n := one_le_pow₀ (by norm_num)
  have hsq : (1 : ℝ) ≤ Real.sqrt (2 ^ n) := by
    rw [show (1 : ℝ) = Real.sqrt 1 from Real.sqrt_one.symm]
    exact Real.sqrt_le_sqrt h2n
  have hpi : (3 : ℝ) < Real.pi := Real.pi_gt_three
  have hx : (1 : ℝ) / 2 ≤ Real.pi / 4 * Real.sqrt (2 ^ n) := by
    have h1 : (1 : ℝ) / 2 ≤ Real.pi / 4 := by linarith
    have h2 : Real.pi / 4 ≤ Real.pi / 4 * Real.sqrt (2 ^ n) := by
      nlinarith
    linarith
  have hround : (1 : ℤ) ≤ round (Real.pi / 4 * Real.sqrt (2 ^ n)) := by
    rw [round_eq]
    rw [show (1 : ℤ) = ⌊(1 : ℝ)⌋ from (Int.floor_one).symm]
    apply Int.floor_le_floor
    linarith
  omega

theorem foldl_append_replicate (m : ℕ) (blk acc : List Gate) :
    (List.range m).foldl (fun qc _ => qc ++ blk) acc
      = acc ++ (List.replicate m blk).join := by
  induction m with
  | zero => simp
  | succ k ih =>
    rw [List.range_succ, List.foldl_append, ih, List.replicate_succ']
    simp [List.join_append, List.append_assoc]

/-- C3: the search-circuit builders compose exactly
`k = round(π/4·√(2^n))` copies of the Grover operator (oracle followed by
diffusion, each copy followed by the loop's barrier), and this `k` is
always at least 1 (the rounded value is never 0, since
`π/4·√(2^n) ≥ π/4 > 1/2`), so no clamping is ever needed. -/
theorem grover_circuit_iteration_count (target_bitstring : List Char) :
    build_grover_circuit target_bitstring
      = hLayer target_bitstring.length ++ [Gate.barrier]
        ++ (List.replicate (optimal_iterations target_bitstring.length)
              (grover_op target_bitstring ++ [Gate.barrier])).join
        ++ measureAll target_bitstring.length
    ∧ optimal_iterations target_bitstring.length
        = (round (Real.pi / 4 * Real.sqrt (2 ^ target_bitstring.length))).toNat
    ∧ 1 ≤ optimal_iterations target_bitstring.length
    ∧ (∀ n : ℕ, create_grover_circuit_nqubit n target_bitstring
        = (hLayer n ++ [Gate.barrier]
            ++ (List.replicate (optimal_iterations n)
                  (grover_op target_bitstring ++ [Gate.barrier])).join
            ++ measureAll n,
          optimal_iterations n)) := by
  refine ⟨?_, rfl, optimal_iterations_pos _, ?_⟩
  · unfold build_grover_circuit
    simp only [foldl_append_replicate]
  · intro n
    unfold create_grover_circuit_nqubit
    simp only [foldl_append_replicate]

/-! ## The topology-sweep selection -/

theorem topologySweepBest_spec (l : List (String × ℝ)) (acc : Option String × ℝ) :
    (l.foldl (fun best p => if p.2 > best.2 then (some p.1, p.2) else best) acc = acc
      ∧ ∀ p ∈ l, p.2 ≤ acc.2)
    ∨ (∃ i : Fin l.length,
        l.foldl (fun best p => if p.2 > best.2 then (some p.1, p.2) else best) acc
          = (some (l.get i).1, (l.get i).2)
        ∧ acc.2 < (l.get i).2
        ∧ (∀ j : Fin l.length, (l.get j).2 ≤ (l.get i).2)
        ∧ (∀ j : Fin l.length, j < i → (l.get j).2 < (l.get i).2)) := by
  induction l generalizing acc with
  | nil => exact Or.inl ⟨rfl, by simp⟩
  | cons p rest ih =>
    by_cases hp : p.2 > acc.2
    · have hstep : (if p.2 > acc.2 then (some p.1, p.2) else acc) = (some p.1, p.2) :=
        if_pos hp
      rcases ih (some p.1, p.2) with ⟨heq, hall⟩ | ⟨i, heq, hacc, hmax, hfirst⟩
      · right
        refine ⟨⟨0, Nat.succ_pos _⟩, ?_, hp, ?_, ?_⟩
        · simp only [List.foldl_cons]
          rw [hstep, heq]
          rfl
        · intro j
          refine Fin.cases ?_ ?_ j
          · exact le_refl _
          · intro k
            exact hall (rest.get k) (List.get_mem rest k.val k.isLt)
        · intro j hj
          exact absurd hj (by simp [Fin.lt_def])
      · right
        refine ⟨i.succ, ?_, hacc.trans' hp, ?_, ?_⟩
        · simp only [List.foldl_cons]
          rw [hstep, heq]
          rfl
        · intro j
          refine Fin.cases ?_ ?_ j
          · exact le_of_lt hacc
          · intro k
            exact hmax k
        · intro j hj
          rcases Fin.eq_zero_or_eq_succ j with rfl | ⟨k, rfl⟩
          · exact hacc
          · exact hfirst k (Fin.succ_lt_succ_iff.mp hj)
    · have hp2 : p.2 ≤ acc.2 := not_lt.mp hp
      have hstep : (if p.2 > acc.2 then (some p.1, p.2) else acc) = acc := if_neg hp
      rcases ih acc with ⟨heq, hall⟩ | ⟨i, heq, hacc, hmax, hfirst⟩
      · left
        constructor
        · simp only [List.foldl_cons]
          rw [hstep, heq]
        · intro q hq
          rcases List.mem_cons.mp hq with rfl | hq2
          · exact hp2
          · exact hall q hq2
      · right
        refine ⟨i.succ, ?_, hacc, ?_, ?_⟩
        · simp only [List.foldl_cons]
          rw [hstep, heq]
          rfl
        · intro j
          refine Fin.cases ?_ ?_ j
          · exact le_of_lt (lt_of_le_of_lt hp2 hacc)
          · intro k
            exact hmax k
        · intro j hj
          rcases Fin.eq_zero_or_eq_succ j with rfl | ⟨k, rfl⟩
          · exact lt_of_le_of_lt hp2 hacc
          · exact hfirst k (Fin.succ_lt_succ_iff.mp hj)

/-- C8: over any nonempty list of (topology name, computed fidelity) pairs
with nonnegative fidelities, the selection loop of
`run_experiment_2_topology` picks an entry of maximal fidelity, and every
strictly earlier entry has strictly smaller fidelity — so a tie at the
maximum is won by the first topology in iteration order (the comparison is
a strict `>` against the running best). -/
theorem topology_sweep_selects_first_max (l : List (String × ℝ)) (hne : l ≠ [])
    (hnn : ∀ p ∈ l, 0 ≤ p.2) :
    ∃ i : Fin l.length,
      (topologySweepBest l).1 = some (l.get i).1
      ∧ (topologySweepBest l).2 = (l.get i).2
      ∧ (∀ j : Fin l.length, (l.get j).2 ≤ (l.get i).2)
      ∧ (∀ j : Fin l.length, j < i → (l.get j).2 < (l.get i).2) := by
  rcases topologySweepBest_spec l (none, -1) with ⟨heq, hall⟩ | ⟨i, heq, _, hmax, hfirst⟩
  · exfalso
    rcases List.exists_mem_of_ne_nil l hne with ⟨p, hp⟩
    have h1 : p.2 ≤ (-1 : ℝ) := hall p hp
    have h2 : (0 : ℝ) ≤ p.2 := hnn p hp
    linarith
  · refine ⟨i, ?_, ?_, hmax, hfirst⟩
    · unfold topologySweepBest
      rw [heq]
    · unfold topologySweepBest
      rw [heq]

/-- Witness for C8: two topologies where the first strictly wins. -/
theorem topology_sweep_selects_first_max_witness :
    (([("FakeBrisbane", (1 : ℝ)), ("FakeKyoto", 0)] : List (String × ℝ)) ≠ []
      ∧ ∀ p ∈ ([("FakeBrisbane", (1 : ℝ)), ("FakeKyoto", 0)] : List (String × ℝ)), 0 ≤ p.2)
    ∧ ∃ i : Fin ([("FakeBrisbane", (1 : ℝ)), ("FakeKyoto", 0)] : List (String × ℝ)).length,
      (topologySweepBest [("FakeBrisbane", 1), ("FakeKyoto", 0)]).1
          = some (([("FakeBrisbane", (1 : ℝ)), ("FakeKyoto", 0)] : List (String × ℝ)).get i).1
      ∧ (topologySweepBest [("FakeBrisbane", 1), ("FakeKyoto", 0)]).2
          = (([("FakeBrisbane", (1 : ℝ)), ("FakeKyoto", 0)] : List (String × ℝ)).get i).2
      ∧ (∀ j, (([("FakeBrisbane", (1 : ℝ)), ("FakeKyoto", 0)] : List (String × ℝ)).get j).2
            ≤ (([("FakeBrisbane", (1 : ℝ)), ("FakeKyoto", 0)] : List (String × ℝ)).get i).2)
      ∧ (∀ j, j < i →
          (([("FakeBrisbane", (1 : ℝ)), ("FakeKyoto", 0)] : List (String × ℝ)).get j).2
            < (([("FakeBrisbane", (1 : ℝ)), ("FakeKyoto", 0)] : List (String × ℝ)).get i).2) :=
  ⟨⟨by simp, by
      intro p hp
      simp only [List.mem_cons, List.not_mem_nil, or_false] at hp
      rcases hp with rfl | rfl <;> simp⟩,
    topology_sweep_selects_first_max [("FakeBrisbane", 1), ("FakeKyoto", 0)]
      (by simp)
      (by
        intro p hp
        simp only [List.mem_cons, List.not_mem_nil, or_false] at hp
        rcases hp with rfl | rfl <;> simp)⟩

/-- C10: for every nonempty candidate list with nonnegative fidelities
(Hellinger fidelities are squares, hence nonnegative), the sweep's best
topology is one of the evaluated candidates — never the initial `None` —
because the running best starts at −1.0 and the first comparison
`fid > -1.0` always succeeds. -/
theorem topology_sweep_always_selects (l : List (String × ℝ)) (hne : l ≠ [])
    (hnn : ∀ p ∈ l, 0 ≤ p.2) :
    ∃ p ∈ l, (topologySweepBest l).1 = some p.1 := by
  rcases topologySweepBest_spec l (none, -1) with ⟨heq, hall⟩ | ⟨i, heq, _, _, _⟩
  · exfalso
    rcases List.exists_mem_of_ne_nil l hne with ⟨p, hp⟩
    have h1 : p.2 ≤ (-1 : ℝ) := hall p hp
    have h2 : (0 : ℝ) ≤ p.2 := hnn p hp
    linarith
  · refine ⟨l.get i, List.get_mem l i.val i.isLt, ?_⟩
    unfold topologySweepBest
    rw [heq]

/-- Witness for C10: a single topology whose fidelity is 0 is still
selected. -/
theorem topology_sweep_always_selects_witness :
    (([("FakeBrisbane", (0 : ℝ))] : List (String × ℝ)) ≠ []
      ∧ ∀ p ∈ ([("FakeBrisbane", (0 : ℝ))] : List (String × ℝ)), 0 ≤ p.2)
    ∧ ∃ p ∈ ([("FakeBrisbane", (0 : ℝ))] : List (String × ℝ)),
        (topologySweepBest [("FakeBrisbane", 0)]).1 = some p.1 :=
  ⟨⟨by simp, by
      intro p hp
      simp only [List.mem_cons, List.not_mem_nil, or_false] at hp
      rcases hp with rfl <;> simp⟩,
    topology_sweep_always_selects [("FakeBrisbane", 0)] (by simp)
      (by
        intro p hp
        simp only [List.mem_cons, List.not_mem_nil, or_false] at hp
        rcases hp with rfl <;> simp)⟩
